import Mathlib

/-!
# STM32 sampling firmware: ring buffer with running average

A shallow embedding of `src/STM32code.c`.  The firmware keeps the last
`SIGBUF_SIZE` analog readings in a circular buffer (`sigbuffer`), together with
a write cursor (`sigbufpos`), the number of valid records (`recordcount`), a
running total and the derived average.  The acquisition thread
(`sampleprocess`) appends readings; the command thread can list
(`printdata`) or remove (`deletedata`) the oldest records.

Modelling conventions.

* Samples are exact rationals (`ℚ`) instead of `float`.
* C `int` values are `Int`; the C operator `%` is `Int.tmod` (truncating).
* The heap array `sigbuffer` is a map from indices to values; the slots of the
  array are the indices `0 .. SIGBUF_SIZE - 1`.
* The two threads are interleaved at the granularity of whole operations: one
  acquisition step is the body of the `while` loop of `sampleprocess`.
* Every operation returns the new state and the list of observable events it
  performs, in program order.
-/

namespace STM32

/-- The constant `SIGBUF_SIZE` (line 10). -/
def SIGBUF_SIZE : Int := 120

/-- Observable events of the operations, in program order: the lines written
to the serial port (one constructor per format string), the calls on the
ticker and on the thread signal, and the divisions that compute `average`. -/
inductive Event where
  /-- The line `No records in memory`. -/
  | noRecords : Event
  /-- The line `%i records in memory`. -/
  | recordsInMemory (n : Int) : Event
  /-- The line `Average value: %f`. -/
  | averageValue (a : ℚ) : Event
  /-- The line `Printing %i records`. -/
  | printing (amt : Int) : Event
  /-- The line `[%i]: %f`, one listed sample. -/
  | record (pos : Int) (v : ℚ) : Event
  /-- The line `Deleting %i records`. -/
  | deleting (amt : Int) : Event
  /-- The line `%i records deleted`. -/
  | deleted (amt : Int) : Event
  /-- The call `sampler.detach()`. -/
  | detach : Event
  /-- The call `Thread::signal_wait(SAMPLE_DONE)`. -/
  | signalWait : Event
  /-- The call `sampler.attach(&sampletrigger, 0.1f)`. -/
  | attach : Event
  /-- The division `runningtotal / recordcount`, with its two operands. -/
  | divide (runningtotal : ℚ) (recordcount : Int) : Event
  deriving DecidableEq

/-- The global variables of the firmware that the sampling engine uses
(lines 14 and 50-54), and whether the ticker `sampler` is attached. -/
structure State where
  /-- The array `sigbuffer`, as a map from index to stored value. -/
  sigbuffer : Int → ℚ
  /-- Index of the next slot to be written. -/
  sigbufpos : Int
  /-- The stored average. -/
  average : ℚ
  /-- The running total. -/
  runningtotal : ℚ
  /-- Number of valid records. -/
  recordcount : Int
  /-- The flag `sampleenable`. -/
  sampleenable : Bool
  /-- Whether the ticker `sampler` is attached. -/
  armed : Bool

/-- Start-up (`main` and the global initialisers): the loop of lines 363-364
zeroes every slot of the freshly allocated array, whose previous content is
`mem`; the ticker is attached. -/
def main (mem : Int → ℚ) : State :=
  { sigbuffer := (List.range SIGBUF_SIZE.toNat).foldl
      (fun (buf : Int → ℚ) (i : Nat) => Function.update buf (i : Int) 0) mem
    sigbufpos := 0
    average := 0
    runningtotal := 0
    recordcount := 0
    sampleenable := true
    armed := true }

/-- One acquisition step: the body of the loop of `sampleprocess`
(lines 73-82), where `reading` is the value returned by `A.read()`. -/
def sampleprocess (s : State) (reading : ℚ) : State × List Event :=
  let runningtotal1 := s.runningtotal - s.sigbuffer s.sigbufpos
  let sigbuffer1 := Function.update s.sigbuffer s.sigbufpos reading
  let runningtotal2 := runningtotal1 + sigbuffer1 s.sigbufpos
  let sigbufpos1 := Int.tmod (s.sigbufpos + 1) SIGBUF_SIZE
  let recordcount1 :=
    if s.recordcount ≥ SIGBUF_SIZE then SIGBUF_SIZE else s.recordcount + 1
  ({ s with
      sigbuffer := sigbuffer1
      sigbufpos := sigbufpos1
      average := runningtotal2 / (recordcount1 : ℚ)
      runningtotal := runningtotal2
      recordcount := recordcount1 },
   [Event.divide runningtotal2 recordcount1])

/-- The start of the oldest-first walk (lines 126 and 172):
`offset = sigbufpos + ((SIGBUF_SIZE - recordcount) % SIGBUF_SIZE)`. -/
def offset (s : State) : Int :=
  s.sigbufpos + Int.tmod (SIGBUF_SIZE - s.recordcount) SIGBUF_SIZE

/-- The slot visited by iteration `i` of the loops of `printdata` and
`deletedata`: `(i + offset) % SIGBUF_SIZE`. -/
def slot (s : State) (i : Nat) : Int :=
  Int.tmod ((i : Int) + offset s) SIGBUF_SIZE

/-- The clamp `if (amt > recordcount) amt = recordcount;` (lines 116, 162). -/
def clamp (s : State) (amt : Int) : Int :=
  if amt > s.recordcount then s.recordcount else amt

/-- The command `printdata(amt)` (lines 91-136). -/
def printdata (s : State) (amt : Int) : State × List Event :=
  if s.recordcount = 0 then
    (s, [Event.noRecords])
  else
    let amt1 := clamp s amt
    ({ s with armed := s.sampleenable },
     [Event.recordsInMemory s.recordcount, Event.averageValue s.average,
        Event.detach]
      ++ (if s.sampleenable then [Event.signalWait] else [])
      ++ [Event.printing amt1]
      ++ (List.range amt1.toNat).map
          (fun i => Event.record (slot s i) (s.sigbuffer (slot s i)))
      ++ (if s.sampleenable then [Event.attach] else []))

/-- One iteration of the loop of `deletedata` (lines 176-177) on the pair
`(runningtotal, sigbuffer)`; `s` is the state on entry to the loop, which
fixes `offset`. -/
def deleteStep (s : State) (p : ℚ × (Int → ℚ)) (i : Nat) : ℚ × (Int → ℚ) :=
  (p.1 - p.2 (slot s i), Function.update p.2 (slot s i) 0)

/-- The loop `for (int i=0; i<amt; i++)` of `deletedata` (lines 174-178). -/
def deleteLoop (s : State) (amt : Int) : ℚ × (Int → ℚ) :=
  (List.range amt.toNat).foldl (deleteStep s) (s.runningtotal, s.sigbuffer)

/-- The command `deletedata(amt)` (lines 138-191).  The division of line 184
is total in the model (`x / 0 = 0` in `ℚ`); its operands are recorded in the
event `Event.divide`. -/
def deletedata (s : State) (amt : Int) : State × List Event :=
  if s.recordcount = 0 then
    (s, [Event.noRecords])
  else
    let amt1 := clamp s amt
    let p := deleteLoop s amt1
    let recordcount1 := s.recordcount - amt1
    ({ s with
        sigbuffer := p.2
        runningtotal := p.1
        recordcount := recordcount1
        average := p.1 / (recordcount1 : ℚ)
        armed := s.sampleenable },
     [Event.recordsInMemory s.recordcount, Event.detach]
      ++ (if s.sampleenable then [Event.signalWait] else [])
      ++ [Event.deleting amt1, Event.divide p.1 recordcount1,
          Event.deleted amt1]
      ++ (if s.sampleenable then [Event.attach] else []))

/-- The command `sampling on` (lines 306-309). -/
def samplingOn (s : State) : State :=
  { s with armed := true, sampleenable := true }

/-- The command `sampling off` (lines 313-316). -/
def samplingOff (s : State) : State :=
  { s with armed := false, sampleenable := false }

/-- States reachable from start-up by acquisition steps and by the commands
of the terminal (`delete` and `print` with a non-negative argument, which is
all `stringtoint` lets through, and `sampling on` / `sampling off`). -/
inductive Reachable : State → Prop where
  | startup (mem : Int → ℚ) : Reachable (main mem)
  | acquire (s : State) (reading : ℚ) :
      Reachable s → Reachable (sampleprocess s reading).1
  | delete (s : State) (amt : Int) :
      Reachable s → 0 ≤ amt → Reachable (deletedata s amt).1
  | print (s : State) (amt : Int) :
      Reachable s → 0 ≤ amt → Reachable (printdata s amt).1
  | switchOn (s : State) : Reachable s → Reachable (samplingOn s)
  | switchOff (s : State) : Reachable s → Reachable (samplingOff s)

/-- The sum of all `SIGBUF_SIZE` slots of a buffer. -/
def slotSum (buf : Int → ℚ) : ℚ :=
  ((List.range SIGBUF_SIZE.toNat).map (fun i : Nat => buf (i : Int))).sum

/-- The retained samples, oldest first: the `recordcount` values
`sigbuffer[(offset + i) % SIGBUF_SIZE]`, `i = 0 .. recordcount - 1`. -/
def view (s : State) : List ℚ :=
  (List.range s.recordcount.toNat).map (fun i => s.sigbuffer (slot s i))

/-- The samples listed by a run, in the order printed: the values of its
`[%i]: %f` lines. -/
def printedSamples (tr : List Event) : List ℚ :=
  tr.filterMap (fun e => match e with
    | Event.record _ v => some v
    | _ => none)

/-- The state after appending the readings `vs` in order. -/
def appendAll (s : State) (vs : List ℚ) : State :=
  vs.foldl (fun t x => (sampleprocess t x).1) s

/-- The divisors of the divisions performed by a run. -/
def divisors (tr : List Event) : List Int :=
  tr.filterMap (fun e => match e with
    | Event.divide _ d => some d
    | _ => none)

/-- Bounds on the count and on the cursor. -/
def InBounds (s : State) : Prop :=
  0 ≤ s.recordcount ∧ s.recordcount ≤ SIGBUF_SIZE ∧
    0 ≤ s.sigbufpos ∧ s.sigbufpos < SIGBUF_SIZE

/-- Every slot outside the window of the retained records holds zero.  Slot
`j` is outside the window when its distance back from the newest record,
`(sigbufpos - 1 - j) mod SIGBUF_SIZE`, is at least `recordcount`. -/
def ZeroFill (s : State) : Prop :=
  ∀ j : Int, 0 ≤ j → j < SIGBUF_SIZE →
    s.recordcount ≤ (s.sigbufpos - 1 - j) % SIGBUF_SIZE → s.sigbuffer j = 0

/-- The invariant of the sampling engine. -/
structure Inv (s : State) : Prop where
  bounds : InBounds s
  zeroFill : ZeroFill s
  total : s.runningtotal = slotSum s.sigbuffer
  avg : 0 < s.recordcount → s.average = s.runningtotal / (s.recordcount : ℚ)

/-- A test input that fills the buffer past its capacity: the 121 readings
`1, 2, ..., 121`, in this order. -/
def ramp : List ℚ :=
  (List.range 121).map (fun i : Nat => (i : ℚ) + 1)

/-! ## Event traces and the freeze -/

/-- Whether an event reports or uses a value read from `recordcount`,
`average`, `runningtotal` or `sigbuffer`: every printed line and the division
do, the calls on the ticker and on the signal do not. -/
def readsBuffer : Event → Bool
  | Event.detach => false
  | Event.signalWait => false
  | Event.attach => false
  | _ => true

/-- The buffer reads of a run that are not preceded by a wait on
`SAMPLE_DONE`. -/
def readsBeforeFreeze (tr : List Event) : List Event :=
  (tr.takeWhile (fun e => e != Event.signalWait)).filter readsBuffer

/-- The events of a run from its wait on `SAMPLE_DONE` on. -/
def fromFreeze (tr : List Event) : List Event :=
  tr.dropWhile (fun e => e != Event.signalWait)

/-! ## The command reader (`userinput`) and `stringtoint` -/

/-- The constant `COMBUF_SIZE` (line 11). -/
def COMBUF_SIZE : Int := 20

/-- The constant `ARGBUF_SIZE` (line 12). -/
def ARGBUF_SIZE : Int := 3

/-- Two's-complement wrap-around of a 32-bit `int`. -/
def wrap32 (x : Int) : Int :=
  (x + 2147483648) % 4294967296 - 2147483648

/-- The loop of `stringtoint` (lines 36-46) on the characters that remain
before the terminator, given as character codes; `total` is the accumulator. -/
def stringtointLoop (total : Int) : List Nat → Int
  | [] => total
  | c :: cs =>
    if c < 48 ∨ c > 57 then -1
    else stringtointLoop (wrap32 (wrap32 (total * 10) + ((c : Int) - 48))) cs

/-- The function `stringtoint` (lines 32-48).  The argument is the string that
`str` points to: its `strlen(str)` characters before the terminator. -/
def stringtoint (str : List Nat) : Int :=
  stringtointLoop 0 str

/-- The decimal value of a string of digit characters, most significant
first, by the positional definition of the library. -/
def decimalValue (str : List Nat) : Nat :=
  Nat.ofDigits 10 (str.reverse.map (fun c => c - 48))

/-- The heap buffers and cursors of the command reader (lines 198-201). -/
structure Reader where
  /-- The array `commandbuf`, as a map from index to byte; its slots are
  `0 .. COMBUF_SIZE - 1`. -/
  commandbuf : Int → Nat
  /-- The cursor `combufpos`. -/
  combufpos : Int
  /-- The array `argumentbuf`, as a map from index to byte; its slots are
  `0 .. ARGBUF_SIZE - 1`. -/
  argumentbuf : Int → Nat
  /-- The cursor `argbufpos`. -/
  argbufpos : Int

/-- The call `memset(buf, 0x0, size)`. -/
def memset (buf : Int → Nat) (size : Int) : Int → Nat :=
  fun i => if 0 ≤ i ∧ i < size then 0 else buf i

/-- The statements after the label `reset` (lines 216-218), also run after
every dispatched command (lines 354-356). -/
def resetReader (r : Reader) : Reader :=
  { commandbuf := memset r.commandbuf COMBUF_SIZE
    combufpos := 0
    argumentbuf := memset r.argumentbuf ARGBUF_SIZE
    argbufpos := 0 }

/-- What the command reader does that the properties observe. -/
inductive ReaderEvent where
  /-- The store `commandbuf[combufpos] = c`, with the index used. -/
  | storeCommand (idx : Int) (c : Nat) : ReaderEvent
  /-- The store `argumentbuf[argbufpos] = c`, with the index used. -/
  | storeArgument (idx : Int) (c : Nat) : ReaderEvent
  /-- The line `Comand max length exceeded` and the reset of the buffer. -/
  | commandOverflow : ReaderEvent
  /-- The line `Argument max length exceeded` and the reset of the buffer. -/
  | argumentOverflow : ReaderEvent
  deriving DecidableEq

/-- How the processing of one character leaves an input loop. -/
inductive LoopExit where
  /-- The statement `goto reset`. -/
  | aborted : LoopExit
  /-- The statement `break`: the entry is complete. -/
  | finished : LoopExit
  /-- The loop continues with the next character. -/
  | more : LoopExit
  deriving DecidableEq

/-- One iteration of the command loop (lines 228-255) on the character `c`
returned by `pc.getc()`. -/
def commandChar (r : Reader) (c : Nat) : LoopExit × Reader × List ReaderEvent :=
  if c = 0x7F ∨ c = 0xD then (LoopExit.aborted, r, [])
  else if c = 0x20 then (LoopExit.finished, r, [])
  else if r.combufpos > COMBUF_SIZE then
    (LoopExit.more,
     { r with combufpos := 0, commandbuf := memset r.commandbuf COMBUF_SIZE },
     [ReaderEvent.commandOverflow])
  else
    (LoopExit.more,
     { r with
        commandbuf := Function.update r.commandbuf r.combufpos c
        combufpos := r.combufpos + 1 },
     [ReaderEvent.storeCommand r.combufpos c])

/-- One iteration of the argument loop (lines 261-297) on the character `c`
returned by `pc.getc()`. -/
def argumentChar (r : Reader) (c : Nat) : LoopExit × Reader × List ReaderEvent :=
  if c = 0x7F ∨ c = 0x20 then (LoopExit.aborted, r, [])
  else if c = 0xD then (LoopExit.finished, r, [])
  else if r.argbufpos ≥ ARGBUF_SIZE then
    (LoopExit.more,
     { r with argbufpos := 0, argumentbuf := memset r.argumentbuf ARGBUF_SIZE },
     [ReaderEvent.argumentOverflow])
  else
    (LoopExit.more,
     { r with
        argumentbuf := Function.update r.argumentbuf r.argbufpos c
        argbufpos := r.argbufpos + 1 },
     [ReaderEvent.storeArgument r.argbufpos c])

/-- An input loop `while(1)` run on the typed characters `input`: it stops at
the first character that leaves the loop, or when the input is used up (the
loop then blocks in `pc.getc()`, exit `more`).  The result is the exit, the
reader state and the events of all iterations. -/
def runLoop (step : Reader → Nat → LoopExit × Reader × List ReaderEvent)
    (r : Reader) : List Nat → LoopExit × Reader × List ReaderEvent
  | [] => (LoopExit.more, r, [])
  | c :: cs =>
    match step r c with
    | (LoopExit.more, r1, ev) =>
      let res := runLoop step r1 cs
      (res.1, res.2.1, ev ++ res.2.2)
    | (exit, r1, ev) => (exit, r1, ev)

/-- The command loop on the typed characters `input`. -/
def commandLoop (r : Reader) (input : List Nat) :
    LoopExit × Reader × List ReaderEvent :=
  runLoop commandChar r input

/-- The argument loop on the typed characters `input`. -/
def argumentLoop (r : Reader) (input : List Nat) :
    LoopExit × Reader × List ReaderEvent :=
  runLoop argumentChar r input

/-- Whether a buffer of `size` bytes holds a terminator (a zero byte) in one
of its slots `0 .. size - 1`. -/
def hasTerminator (buf : Int → Nat) (size : Int) : Bool :=
  (List.range size.toNat).any (fun i : Nat => buf (i : Int) == 0)

/-- The indices at which a run of the command loop stores into
`commandbuf`. -/
def commandStores (ev : List ReaderEvent) : List Int :=
  ev.filterMap (fun e => match e with
    | ReaderEvent.storeCommand idx _ => some idx
    | _ => none)

/-- What the dispatcher (lines 300-352) does with a command. -/
inductive Action where
  /-- The branch `sampling on`. -/
  | samplingOn : Action
  /-- The branch `sampling off`. -/
  | samplingOff : Action
  /-- The message `Argument is not valid`. -/
  | invalidArgument : Action
  /-- The message `argument contained non-integer characters`. -/
  | nonInteger : Action
  /-- The call `printdata(arg)`. -/
  | print (arg : Int) : Action
  /-- The call `deletedata(arg)`. -/
  | delete (arg : Int) : Action
  /-- The message `Command was not recognized`. -/
  | notRecognized : Action
  deriving DecidableEq

/-- The character codes of the literal `sampling`. -/
def strSampling : List Nat := [115, 97, 109, 112, 108, 105, 110, 103]

/-- The character codes of the literal `print`. -/
def strPrint : List Nat := [112, 114, 105, 110, 116]

/-- The character codes of the literal `delete`. -/
def strDelete : List Nat := [100, 101, 108, 101, 116, 101]

/-- The character codes of the literal `on`. -/
def strOn : List Nat := [111, 110]

/-- The character codes of the literal `off`. -/
def strOff : List Nat := [111, 102, 102]

/-- The chain of comparisons of the dispatcher (lines 300-352).  The
arguments are the strings that `commandbuf` and `argumentbuf` point to (their
characters before the terminator); `strcmp(a, b) == 0` is equality of the two
strings. -/
def decode (command argument : List Nat) : Action :=
  if command = strSampling then
    if argument = strOn then Action.samplingOn
    else if argument = strOff then Action.samplingOff
    else Action.invalidArgument
  else if command = strPrint then
    if stringtoint argument = -1 then Action.nonInteger
    else Action.print (stringtoint argument)
  else if command = strDelete then
    if stringtoint argument = -1 then Action.nonInteger
    else Action.delete (stringtoint argument)
  else Action.notRecognized

/-- The effect of a dispatched command on the state of the sampling engine. -/
def perform (s : State) : Action → State
  | Action.samplingOn => samplingOn s
  | Action.samplingOff => samplingOff s
  | Action.print arg => (printdata s arg).1
  | Action.delete arg => (deletedata s arg).1
  | _ => s

/-- States reached from start-up by acquisition steps and by dispatched
commands, with any command word and any argument. -/
inductive Run : State → Prop where
  | startup (mem : Int → ℚ) : Run (main mem)
  | acquire (s : State) (reading : ℚ) : Run s → Run (sampleprocess s reading).1
  | command (s : State) (command argument : List Nat) :
      Run s → Run (perform s (decode command argument))

/-- A test state: start-up followed by one acquisition step with reading
`1`, so that one record is in memory and sampling is enabled. -/
def oneRecord : State :=
  (sampleprocess (main (fun _ => 0)) 1).1

/-! # Theorems -/

/-! ## Arithmetic of the oldest-first walk -/

theorem slot_eq (s : State) (h : InBounds s) (i : Nat) :
    slot s i = ((i : Int) + s.sigbufpos + (120 - s.recordcount) % 120) % 120 := by
  obtain ⟨h0, h1, h2, h3⟩ := h
  simp only [SIGBUF_SIZE] at h1 h3
  have e1 : Int.tmod (120 - s.recordcount) 120 = (120 - s.recordcount) % 120 :=
    Int.tmod_eq_emod (by omega) (by omega)
  have e2 : Int.tmod ((i : Int) + (s.sigbufpos + (120 - s.recordcount) % 120)) 120
      = ((i : Int) + (s.sigbufpos + (120 - s.recordcount) % 120)) % 120 :=
    Int.tmod_eq_emod (by omega) (by omega)
  simp only [slot, offset, SIGBUF_SIZE, e1, e2]
  congr 1
  omega

theorem slot_range (s : State) (h : InBounds s) (i : Nat) :
    0 ≤ slot s i ∧ slot s i < 120 := by
  rw [slot_eq s h i]
  omega

/-! ## Sums over all slots -/

theorem sum_update_range (buf : Int → ℚ) (k : Int) (x : ℚ) (n : Nat) :
    ((List.range n).map (fun i : Nat => Function.update buf k x (i : Int))).sum
      = ((List.range n).map (fun i : Nat => buf (i : Int))).sum
        + (if 0 ≤ k ∧ k < n then x - buf k else 0) := by
  induction n with
  | zero =>
    have c : ¬ (0 ≤ k ∧ k < ((0 : Nat) : Int)) := by omega
    rw [if_neg c]
    simp
  | succ n ih =>
    rw [List.sum_range_succ, List.sum_range_succ, ih]
    by_cases hk : k = (n : Int)
    · subst hk
      have c1 : ¬ (0 ≤ (n : Int) ∧ (n : Int) < (n : Int)) := by omega
      have c2 : (0 ≤ (n : Int) ∧ (n : Int) < ((n + 1 : Nat) : Int)) := by omega
      rw [if_neg c1, if_pos c2, Function.update_same]
      ring
    · have hne : ((n : Int)) ≠ k := fun h => hk h.symm
      rw [Function.update_noteq hne]
      by_cases c : 0 ≤ k ∧ k < (n : Int)
      · have c2 : (0 ≤ k ∧ k < ((n + 1 : Nat) : Int)) := by omega
        rw [if_pos c, if_pos c2]
        ring
      · have c2 : ¬ (0 ≤ k ∧ k < ((n + 1 : Nat) : Int)) := by omega
        rw [if_neg c, if_neg c2]
        ring

theorem slotSum_update (buf : Int → ℚ) (k : Int) (x : ℚ) (h0 : 0 ≤ k)
    (h1 : k < 120) : slotSum (Function.update buf k x) = slotSum buf - buf k + x := by
  have h := sum_update_range buf k x SIGBUF_SIZE.toNat
  have c : 0 ≤ k ∧ k < ((SIGBUF_SIZE.toNat : Nat) : Int) := by
    simp only [SIGBUF_SIZE]; omega
  rw [if_pos c] at h
  simp only [slotSum, h]
  ring

theorem sum_range_zero (buf : Int → ℚ) (n : Nat)
    (h : ∀ j : Int, 0 ≤ j → j < n → buf j = 0) :
    ((List.range n).map (fun i : Nat => buf (i : Int))).sum = 0 := by
  induction n with
  | zero => simp
  | succ n ih =>
    rw [List.sum_range_succ, ih (fun j a b => h j a (by omega)), h n (by omega) (by omega)]
    simp

theorem slotSum_zero (buf : Int → ℚ)
    (h : ∀ j : Int, 0 ≤ j → j < 120 → buf j = 0) : slotSum buf = 0 := by
  unfold slotSum
  apply sum_range_zero
  intro j a b
  apply h j a
  simp only [SIGBUF_SIZE] at b
  omega

/-! ## Start-up -/

theorem zero_loop (mem : Int → ℚ) (n : Nat) (j : Int) (h0 : 0 ≤ j) (h1 : j < n) :
    (List.range n).foldl (fun (buf : Int → ℚ) (i : Nat) => Function.update buf (i : Int) 0) mem j = 0 := by
  induction n with
  | zero => omega
  | succ n ih =>
    rw [List.range_succ, List.foldl_append]
    simp only [List.foldl_cons, List.foldl_nil]
    by_cases hj : j = (n : Int)
    · subst hj; simp
    · rw [Function.update_noteq hj]
      exact ih (by omega)

theorem main_slot (mem : Int → ℚ) (j : Int) (h0 : 0 ≤ j) (h1 : j < 120) :
    (main mem).sigbuffer j = 0 := by
  apply zero_loop mem _ j h0
  simp only [SIGBUF_SIZE]
  omega

theorem inv_main (mem : Int → ℚ) : Inv (main mem) where
  bounds := by simp [InBounds, main, SIGBUF_SIZE]
  zeroFill := fun j a b _ => main_slot mem j a (by simpa [SIGBUF_SIZE] using b)
  total := by
    rw [slotSum_zero _ (main_slot mem)]
    rfl
  avg := by
    intro h
    simp [main] at h

/-! ## The acquisition step -/

theorem sampleprocess_pos (s : State) (h : InBounds s) (x : ℚ) :
    (sampleprocess s x).1.sigbufpos = (s.sigbufpos + 1) % 120 := by
  obtain ⟨_, _, h2, _⟩ := h
  exact Int.tmod_eq_emod (by omega) (by decide)

theorem sampleprocess_count (s : State) (x : ℚ) :
    (sampleprocess s x).1.recordcount
      = if s.recordcount ≥ 120 then 120 else s.recordcount + 1 := rfl

theorem sampleprocess_buf (s : State) (x : ℚ) :
    (sampleprocess s x).1.sigbuffer = Function.update s.sigbuffer s.sigbufpos x := rfl

theorem sampleprocess_total (s : State) (x : ℚ) :
    (sampleprocess s x).1.runningtotal = s.runningtotal - s.sigbuffer s.sigbufpos + x := by
  simp [sampleprocess]

theorem inBounds_sampleprocess (s : State) (h : InBounds s) (x : ℚ) :
    InBounds (sampleprocess s x).1 := by
  have hp := sampleprocess_pos s h x
  have hc := sampleprocess_count s x
  obtain ⟨h0, h1, h2, h3⟩ := h
  simp only [SIGBUF_SIZE] at h1 h3
  simp only [InBounds, SIGBUF_SIZE, hp, hc]
  split_ifs <;> omega

theorem inv_sampleprocess (s : State) (h : Inv s) (x : ℚ) :
    Inv (sampleprocess s x).1 where
  bounds := inBounds_sampleprocess s h.bounds x
  zeroFill := by
    intro j j0 j1 hj
    have hz := h.zeroFill j j0 j1
    rw [sampleprocess_pos s h.bounds x, sampleprocess_count s x] at hj
    obtain ⟨h0, h1, h2, h3⟩ := h.bounds
    simp only [SIGBUF_SIZE] at h1 h3 j1 hj hz
    have hne : j ≠ s.sigbufpos := by
      intro e
      subst e
      split_ifs at hj <;> omega
    rw [sampleprocess_buf, Function.update_noteq hne]
    apply hz
    split_ifs at hj <;> omega
  total := by
    obtain ⟨h0, h1, h2, h3⟩ := h.bounds
    rw [sampleprocess_total, sampleprocess_buf,
      slotSum_update _ _ _ h2 (by simpa [SIGBUF_SIZE] using h3), h.total]
  avg := by
    intro _
    simp [sampleprocess]

/-! ## The deletion loop -/

theorem deleteLoop_succ (s : State) (p : ℚ × (Int → ℚ)) (n : Nat) :
    (List.range (n + 1)).foldl (deleteStep s) p
      = deleteStep s ((List.range n).foldl (deleteStep s) p) n := by
  rw [List.range_succ, List.foldl_append]
  rfl

theorem deleteLoop_other (s : State) (p : ℚ × (Int → ℚ)) (n : Nat) (j : Int)
    (h : ∀ i : Nat, i < n → slot s i ≠ j) :
    ((List.range n).foldl (deleteStep s) p).2 j = p.2 j := by
  induction n with
  | zero => rfl
  | succ n ih =>
    rw [deleteLoop_succ]
    simp only [deleteStep]
    rw [Function.update_noteq (fun e => h n (by omega) e.symm)]
    exact ih (fun i hi => h i (by omega))

theorem deleteLoop_zeroed (s : State) (p : ℚ × (Int → ℚ)) (n : Nat) (i : Nat)
    (hi : i < n) : ((List.range n).foldl (deleteStep s) p).2 (slot s i) = 0 := by
  induction n with
  | zero => omega
  | succ n ih =>
    rw [deleteLoop_succ]
    simp only [deleteStep]
    by_cases e : slot s i = slot s n
    · rw [e, Function.update_same]
    · rw [Function.update_noteq e]
      apply ih
      by_contra c
      have : i = n := by omega
      exact e (by rw [this])

theorem deleteLoop_total (s : State) (hs : InBounds s) (p : ℚ × (Int → ℚ)) (n : Nat) :
    ((List.range n).foldl (deleteStep s) p).1
        - slotSum ((List.range n).foldl (deleteStep s) p).2
      = p.1 - slotSum p.2 := by
  induction n with
  | zero => rfl
  | succ n ih =>
    rw [deleteLoop_succ]
    simp only [deleteStep]
    obtain ⟨a, b⟩ := slot_range s hs n
    rw [slotSum_update _ _ _ a b, ← ih]
    ring

/-! ## The command `deletedata` -/

theorem deletedata_empty (s : State) (amt : Int) (h : s.recordcount = 0) :
    deletedata s amt = (s, [Event.noRecords]) := by
  simp [deletedata, h]

theorem deletedata_state (s : State) (amt : Int) (h : s.recordcount ≠ 0) :
    (deletedata s amt).1 =
      { s with
          sigbuffer := (deleteLoop s (clamp s amt)).2
          runningtotal := (deleteLoop s (clamp s amt)).1
          recordcount := s.recordcount - clamp s amt
          average := (deleteLoop s (clamp s amt)).1
            / ((s.recordcount - clamp s amt : Int) : ℚ)
          armed := s.sampleenable } := by
  simp [deletedata, h]

theorem clamp_bounds (s : State) (amt : Int) (h0 : 0 ≤ amt) (h1 : 0 ≤ s.recordcount) :
    0 ≤ clamp s amt ∧ clamp s amt ≤ s.recordcount ∧ clamp s amt ≤ amt := by
  unfold clamp
  split_ifs <;> omega

theorem inv_deletedata (s : State) (h : Inv s) (amt : Int) (hamt : 0 ≤ amt) :
    Inv (deletedata s amt).1 := by
  by_cases hrc : s.recordcount = 0
  · rw [deletedata_empty s amt hrc]
    exact h
  · have hb := h.bounds
    obtain ⟨h0, h1, h2, h3⟩ := h.bounds
    obtain ⟨c0, c1, _⟩ := clamp_bounds s amt hamt h0
    simp only [SIGBUF_SIZE] at h1 h3
    rw [deletedata_state s amt hrc]
    refine ⟨?_, ?_, ?_, ?_⟩
    · simp only [InBounds, SIGBUF_SIZE]
      omega
    · intro j j0 j1 hj
      simp only [SIGBUF_SIZE] at j1 hj
      simp only [deleteLoop]
      by_cases hd : s.recordcount ≤ (s.sigbufpos - 1 - j) % 120
      · have hz : s.sigbuffer j = 0 :=
          h.zeroFill j j0 (by simpa [SIGBUF_SIZE] using j1) (by simpa [SIGBUF_SIZE] using hd)
        by_cases hex : ∃ i : Nat, i < (clamp s amt).toNat ∧ slot s i = j
        · obtain ⟨i, hi, e⟩ := hex
          rw [← e]
          exact deleteLoop_zeroed s _ _ i hi
        · rw [deleteLoop_other s _ _ j (fun i hi e => hex ⟨i, hi, e⟩)]
          exact hz
      · have hi : (s.recordcount - 1 - (s.sigbufpos - 1 - j) % 120).toNat
            < (clamp s amt).toNat := by omega
        have e : slot s (s.recordcount - 1 - (s.sigbufpos - 1 - j) % 120).toNat = j := by
          rw [slot_eq s hb]
          omega
        rw [← e]
        exact deleteLoop_zeroed s _ _ _ hi
    · have := deleteLoop_total s hb (s.runningtotal, s.sigbuffer) (clamp s amt).toNat
      simp only [deleteLoop]
      rw [h.total] at this ⊢
      linarith
    · intro _
      rfl

/-! ## The other commands and the invariant on reachable states -/

theorem printdata_state (s : State) (amt : Int) :
    (printdata s amt).1 = s ∨ (printdata s amt).1 = { s with armed := s.sampleenable } := by
  by_cases h : s.recordcount = 0
  · exact Or.inl (by simp [printdata, h])
  · exact Or.inr (by simp [printdata, h])

theorem inv_printdata (s : State) (h : Inv s) (amt : Int) : Inv (printdata s amt).1 := by
  rcases printdata_state s amt with e | e <;> rw [e]
  · exact h
  · exact ⟨h.bounds, h.zeroFill, h.total, h.avg⟩

theorem inv_reachable (s : State) (h : Reachable s) : Inv s := by
  induction h with
  | startup mem => exact inv_main mem
  | acquire s x _ ih => exact inv_sampleprocess s ih x
  | delete s amt _ hamt ih => exact inv_deletedata s ih amt hamt
  | print s amt _ _ ih => exact inv_printdata s ih amt
  | switchOn s _ ih => exact ⟨ih.bounds, ih.zeroFill, ih.total, ih.avg⟩
  | switchOff s _ ih => exact ⟨ih.bounds, ih.zeroFill, ih.total, ih.avg⟩

/-! ## The oldest-first view under an acquisition step -/

theorem map_range_snoc {α : Type} (f : Nat → α) (n : Nat) :
    (List.range (n + 1)).map f = (List.range n).map f ++ [f n] := by
  rw [List.range_succ, List.map_append, List.map_cons, List.map_nil]

theorem map_range_tail {α : Type} (f : Nat → α) (n : Nat) :
    ((List.range (n + 1)).map f).tail = (List.range n).map (fun i => f (i + 1)) := by
  rw [List.range_succ_eq_map, List.map_cons, List.tail_cons, List.map_map]
  rfl

theorem view_length (s : State) : (view s).length = s.recordcount.toNat := by
  simp [view]

theorem view_sampleprocess_lt (s : State) (h : InBounds s) (x : ℚ)
    (hlt : s.recordcount < 120) : view (sampleprocess s x).1 = view s ++ [x] := by
  have hb := inBounds_sampleprocess s h x
  have hp := sampleprocess_pos s h x
  have hc := sampleprocess_count s x
  obtain ⟨h0, h1, h2, h3⟩ := h
  simp only [SIGBUF_SIZE] at h1 h3
  rw [if_neg (by omega)] at hc
  have hn : (sampleprocess s x).1.recordcount.toNat = s.recordcount.toNat + 1 := by
    rw [hc]; omega
  unfold view
  rw [hn, map_range_snoc]
  congr 1
  · apply List.map_congr_left
    intro i hi
    have hi : i < s.recordcount.toNat := List.mem_range.mp hi
    have e : slot (sampleprocess s x).1 i = slot s i := by
      rw [slot_eq _ hb, slot_eq s ⟨h0, h1, h2, h3⟩, hp, hc]
      omega
    have ne : slot s i ≠ s.sigbufpos := by
      rw [slot_eq s ⟨h0, h1, h2, h3⟩]
      omega
    rw [e, sampleprocess_buf, Function.update_noteq ne]
  · have e : slot (sampleprocess s x).1 s.recordcount.toNat = s.sigbufpos := by
      rw [slot_eq _ hb, hp, hc]
      omega
    rw [e, sampleprocess_buf, Function.update_same]

theorem view_sampleprocess_full (s : State) (h : InBounds s) (x : ℚ)
    (hfull : s.recordcount = 120) :
    view (sampleprocess s x).1 = (view s).tail ++ [x] := by
  have hb := inBounds_sampleprocess s h x
  have hp := sampleprocess_pos s h x
  have hc := sampleprocess_count s x
  obtain ⟨h0, h1, h2, h3⟩ := h
  simp only [SIGBUF_SIZE] at h1 h3
  rw [if_pos (by omega)] at hc
  have hn : (sampleprocess s x).1.recordcount.toNat = 119 + 1 := by
    rw [hc]; rfl
  have hm : s.recordcount.toNat = 119 + 1 := by
    rw [hfull]; rfl
  unfold view
  rw [hn, hm, map_range_snoc, map_range_tail]
  congr 1
  · apply List.map_congr_left
    intro i hi
    have hi : i < 119 := List.mem_range.mp hi
    have e : slot (sampleprocess s x).1 i = slot s (i + 1) := by
      rw [slot_eq _ hb, slot_eq s ⟨h0, h1, h2, h3⟩, hp, hc, hfull]
      push_cast
      omega
    have ne : slot s (i + 1) ≠ s.sigbufpos := by
      rw [slot_eq s ⟨h0, h1, h2, h3⟩, hfull]
      push_cast
      omega
    rw [e, sampleprocess_buf, Function.update_noteq ne]
  · have e : slot (sampleprocess s x).1 119 = s.sigbufpos := by
      rw [slot_eq _ hb, hp, hc]
      push_cast
      omega
    rw [e, sampleprocess_buf, Function.update_same]

/-! ## Runs of acquisition steps -/

theorem appendAll_snoc (s : State) (vs : List ℚ) (x : ℚ) :
    appendAll s (vs ++ [x]) = (sampleprocess (appendAll s vs) x).1 := by
  simp [appendAll, List.foldl_append]

theorem reachable_appendAll (s : State) (h : Reachable s) (vs : List ℚ) :
    Reachable (appendAll s vs) := by
  induction vs using List.reverseRecOn with
  | nil => exact h
  | append_singleton vs x ih =>
    rw [appendAll_snoc]
    exact Reachable.acquire _ x ih

theorem appendAll_main (mem : Int → ℚ) (vs : List ℚ) :
    (appendAll (main mem) vs).recordcount = min (vs.length : Int) 120 ∧
      view (appendAll (main mem) vs) = vs.drop (vs.length - 120) := by
  induction vs using List.reverseRecOn with
  | nil => exact ⟨rfl, rfl⟩
  | append_singleton vs x ih =>
    obtain ⟨hc, hv⟩ := ih
    have hb := (inv_reachable _ (reachable_appendAll _ (Reachable.startup mem) vs)).bounds
    rw [appendAll_snoc, sampleprocess_count, hc]
    refine ⟨?_, ?_⟩
    · rw [List.length_append, List.length_singleton]
      push_cast
      split_ifs <;> omega
    · by_cases hl : vs.length < 120
      · rw [view_sampleprocess_lt _ hb x (by omega), hv]
        have e1 : vs.length - 120 = 0 := by omega
        have e2 : (vs ++ [x]).length - 120 = 0 := by
          rw [List.length_append, List.length_singleton]; omega
        rw [e1, e2]
        rfl
      · rw [view_sampleprocess_full _ hb x (by omega), hv, List.tail_drop]
        have e2 : (vs ++ [x]).length - 120 = vs.length - 120 + 1 := by
          rw [List.length_append, List.length_singleton]; omega
        rw [e2, List.drop_append_of_le_length (by omega)]

/-! ## The samples listed by `printdata` -/

theorem printedSamples_append (a b : List Event) :
    printedSamples (a ++ b) = printedSamples a ++ printedSamples b := by
  simp [printedSamples, List.filterMap_append]

theorem printedSamples_records (f : Nat → Int) (g : Nat → ℚ) (l : List Nat) :
    printedSamples (l.map (fun i => Event.record (f i) (g i))) = l.map g := by
  induction l with
  | nil => rfl
  | cons a l ih =>
    simp only [List.map_cons]
    rw [← ih]
    rfl

theorem printdata_samples (s : State) (amt : Int) (h : s.recordcount ≠ 0) :
    printedSamples (printdata s amt).2
      = (List.range (clamp s amt).toNat).map (fun i => s.sigbuffer (slot s i)) := by
  unfold printdata
  rw [if_neg h]
  simp only [printedSamples_append,
    printedSamples_records (fun i => slot s i) (fun i => s.sigbuffer (slot s i))]
  cases s.sampleenable <;> simp [printedSamples]

theorem printdata_samples_take (s : State) (amt : Int) (h : 0 < s.recordcount)
    (hamt : 0 ≤ amt) : printedSamples (printdata s amt).2 = (view s).take amt.toNat := by
  rw [printdata_samples s amt (by omega)]
  unfold view
  rw [← List.map_take, List.take_range]
  have e : (clamp s amt).toNat = min amt.toNat s.recordcount.toNat := by
    unfold clamp
    split_ifs <;> omega
  rw [e]

theorem printdata_after_appends (mem : Int → ℚ) (vs : List ℚ) (hn : 1 ≤ vs.length)
    (amt : Int) (hamt : 0 ≤ amt) :
    printedSamples (printdata (appendAll (main mem) vs) amt).2
      = (vs.drop (vs.length - 120)).take amt.toNat := by
  obtain ⟨hc, hv⟩ := appendAll_main mem vs
  rw [printdata_samples_take _ amt (by omega) hamt, hv]

theorem ramp_length : ramp.length = 121 := by
  simp [ramp]

theorem ramp_get (i : Nat) (h : i < 121) : ramp[i]? = some ((i : ℚ) + 1) := by
  simp [ramp, List.getElem?_range h]

/-! ## The sum of the view -/

theorem list_sum_range (f : Nat → ℚ) (n : Nat) :
    ((List.range n).map f).sum = ∑ i ∈ Finset.range n, f i := by
  induction n with
  | zero => rfl
  | succ n ih => rw [List.sum_range_succ, Finset.sum_range_succ, ih]

theorem view_sum (s : State) (h : Inv s) : (view s).sum = slotSum s.sigbuffer := by
  have hb := h.bounds
  obtain ⟨h0, h1, h2, h3⟩ := h.bounds
  simp only [SIGBUF_SIZE] at h1 h3
  unfold view slotSum
  rw [list_sum_range, list_sum_range]
  have e : SIGBUF_SIZE.toNat = 120 := rfl
  rw [e]
  refine Finset.sum_bij_ne_zero (fun i _ _ => (slot s i).toNat) ?_ ?_ ?_ ?_
  · intro i _ _
    have := slot_range s hb i
    dsimp only
    rw [Finset.mem_range]
    omega
  · intro i hi _ k hk _ hik
    dsimp only at hik
    rw [Finset.mem_range] at hi hk
    have hi2 := slot_eq s hb i
    have hk2 := slot_eq s hb k
    have hi3 := slot_range s hb i
    have hk3 := slot_range s hb k
    have : slot s i = slot s k := by omega
    rw [hi2, hk2] at this
    omega
  · intro j hj hne
    rw [Finset.mem_range] at hj
    have hw : ¬ s.recordcount ≤ (s.sigbufpos - 1 - (j : Int)) % 120 := by
      intro c
      exact hne (h.zeroFill j (by omega) (by simp only [SIGBUF_SIZE]; omega)
        (by simpa [SIGBUF_SIZE] using c))
    have es : slot s (s.recordcount - 1 - (s.sigbufpos - 1 - (j : Int)) % 120).toNat
        = (j : Int) := by
      rw [slot_eq s hb]
      omega
    refine ⟨(s.recordcount - 1 - (s.sigbufpos - 1 - (j : Int)) % 120).toNat, ?_, ?_, ?_⟩
    · rw [Finset.mem_range]
      omega
    · rw [es]
      exact hne
    · dsimp only
      rw [es]
      omega
  · intro i _ _
    have := slot_range s hb i
    dsimp only
    rw [Int.toNat_of_nonneg this.1]

/-! ## Deleting the oldest records -/

theorem map_range_drop {α : Type} (f : Nat → α) (n a : Nat) :
    ((List.range n).map f).drop a = (List.range (n - a)).map (fun i => f (i + a)) := by
  apply List.ext_getElem?
  intro i
  rw [List.getElem?_drop, List.getElem?_map, List.getElem?_map]
  by_cases hi : i < n - a
  · rw [List.getElem?_range hi, List.getElem?_range (by omega)]
    simp only [Option.map_some']
    congr 2
    omega
  · rw [List.getElem?_eq_none (by rw [List.length_range]; omega),
      List.getElem?_eq_none (by rw [List.length_range]; omega)]
    rfl

theorem deletedata_count (s : State) (amt : Int) (h : s.recordcount ≠ 0) :
    (deletedata s amt).1.recordcount = s.recordcount - clamp s amt := by
  rw [deletedata_state s amt h]

theorem deletedata_pos (s : State) (amt : Int) :
    (deletedata s amt).1.sigbufpos = s.sigbufpos := by
  by_cases h : s.recordcount = 0
  · rw [deletedata_empty s amt h]
  · rw [deletedata_state s amt h]

theorem deletedata_buf (s : State) (amt : Int) (h : s.recordcount ≠ 0) :
    (deletedata s amt).1.sigbuffer
      = ((List.range (clamp s amt).toNat).foldl (deleteStep s)
          (s.runningtotal, s.sigbuffer)).2 := by
  rw [deletedata_state s amt h]
  rfl

theorem view_deletedata (s : State) (h : Inv s) (amt : Int) (hamt : 0 ≤ amt)
    (hle : amt ≤ s.recordcount) (hrc : 0 < s.recordcount) :
    view (deletedata s amt).1 = (view s).drop amt.toNat := by
  have hne : s.recordcount ≠ 0 := by omega
  have hb := h.bounds
  have hb2 := (inv_deletedata s h amt hamt).bounds
  have hcl : clamp s amt = amt := by
    unfold clamp
    rw [if_neg (by omega)]
  have hc := deletedata_count s amt hne
  have hp := deletedata_pos s amt
  rw [hcl] at hc
  obtain ⟨h0, h1, h2, h3⟩ := h.bounds
  simp only [SIGBUF_SIZE] at h1 h3
  unfold view
  rw [map_range_drop, hc]
  have en : (s.recordcount - amt).toNat = s.recordcount.toNat - amt.toNat := by omega
  rw [en]
  apply List.map_congr_left
  intro i hi
  have hi : i < s.recordcount.toNat - amt.toNat := List.mem_range.mp hi
  have e : slot (deletedata s amt).1 i = slot s (i + amt.toNat) := by
    rw [slot_eq _ hb2, slot_eq s hb, hp, hc]
    push_cast
    omega
  rw [e, deletedata_buf s amt hne, hcl]
  apply deleteLoop_other
  intro k hk
  rw [slot_eq s hb, slot_eq s hb]
  push_cast
  omega

/-! ## The scenarios of the specification, at capacity `SIGBUF_SIZE` -/

theorem scenario_append (mem : Int → ℚ) :
    (appendAll (main mem) [3, 4, 5]).recordcount = 3 ∧
    view (appendAll (main mem) [3, 4, 5]) = [3, 4, 5] ∧
    (appendAll (main mem) [3, 4, 5]).average = 4 := by
  have hr := reachable_appendAll _ (Reachable.startup mem) [3, 4, 5]
  have hi := inv_reachable _ hr
  obtain ⟨hc, hv⟩ := appendAll_main mem [3, 4, 5]
  have hc3 : (appendAll (main mem) [3, 4, 5]).recordcount = 3 := by
    rw [hc]; decide
  have hv3 : view (appendAll (main mem) [3, 4, 5]) = [3, 4, 5] := by
    rw [hv]; rfl
  refine ⟨hc3, hv3, ?_⟩
  rw [hi.avg (by omega), hi.total, ← view_sum _ hi, hv3, hc3]
  norm_num

theorem scenario_prune (mem : Int → ℚ) :
    (deletedata (appendAll (main mem) [2, 3, 4, 5]) 2).1.recordcount = 2 ∧
    view (deletedata (appendAll (main mem) [2, 3, 4, 5]) 2).1 = [4, 5] ∧
    (deletedata (appendAll (main mem) [2, 3, 4, 5]) 2).1.average = 9 / 2 := by
  have hr := reachable_appendAll _ (Reachable.startup mem) [2, 3, 4, 5]
  have hi := inv_reachable _ hr
  have hi2 := inv_deletedata _ hi 2 (by decide)
  obtain ⟨hc, hv⟩ := appendAll_main mem [2, 3, 4, 5]
  have hc4 : (appendAll (main mem) [2, 3, 4, 5]).recordcount = 4 := by
    rw [hc]; decide
  have hv4 : view (appendAll (main mem) [2, 3, 4, 5]) = [2, 3, 4, 5] := by
    rw [hv]; rfl
  have hcl : clamp (appendAll (main mem) [2, 3, 4, 5]) 2 = 2 := by
    unfold clamp
    rw [hc4]
    decide
  have hc2 : (deletedata (appendAll (main mem) [2, 3, 4, 5]) 2).1.recordcount = 2 := by
    rw [deletedata_count _ _ (by omega), hcl, hc4]
    decide
  have hv2 : view (deletedata (appendAll (main mem) [2, 3, 4, 5]) 2).1 = [4, 5] := by
    rw [view_deletedata _ hi 2 (by decide) (by omega) (by omega), hv4]
    rfl
  refine ⟨hc2, hv2, ?_⟩
  rw [hi2.avg (by omega), hi2.total, ← view_sum _ hi2, hv2, hc2]
  norm_num

/-! ## The divisions that compute the average -/

theorem sampleprocess_divisors (s : State) (h : InBounds s) (x : ℚ) :
    divisors (sampleprocess s x).2 = [(sampleprocess s x).1.recordcount] ∧
      0 < (sampleprocess s x).1.recordcount := by
  refine ⟨rfl, ?_⟩
  obtain ⟨h0, _, _, _⟩ := h
  rw [sampleprocess_count]
  split_ifs <;> omega

theorem deletedata_divisors (s : State) (amt : Int) (h : s.recordcount ≠ 0) :
    divisors (deletedata s amt).2 = [s.recordcount - clamp s amt] := by
  unfold deletedata
  rw [if_neg h]
  cases s.sampleenable <;> simp [divisors]

/-! ## Main results -/

/-- C1.  In every reachable state the running total equals the sum of all
`SIGBUF_SIZE` slots of the buffer. -/
theorem runningtotal_eq_sum_of_slots (s : State) (h : Reachable s) :
    s.runningtotal = slotSum s.sigbuffer :=
  (inv_reachable s h).total

theorem runningtotal_eq_sum_of_slots_witness :
    Reachable (deletedata (sampleprocess (sampleprocess (main (fun _ => 9)) 3).1 4).1 1).1 ∧
    (deletedata (sampleprocess (sampleprocess (main (fun _ => 9)) 3).1 4).1 1).1.runningtotal
      = slotSum (deletedata (sampleprocess (sampleprocess (main (fun _ => 9)) 3).1 4).1 1).1.sigbuffer :=
  ⟨Reachable.delete _ _ (Reachable.acquire _ _ (Reachable.acquire _ _ (Reachable.startup _)))
      (by decide),
   runningtotal_eq_sum_of_slots _
    (Reachable.delete _ _ (Reachable.acquire _ _ (Reachable.acquire _ _ (Reachable.startup _)))
      (by decide))⟩

/-- C2.  The ring buffer refines a bounded FIFO queue under append: from a
reachable state, one acquisition step with sample `x` appends `x` to the
oldest-first view when the buffer is not full, and drops the oldest sample and
appends `x` when it is full. -/
theorem view_append_refines_fifo (s : State) (h : Reachable s) (x : ℚ) :
    (s.recordcount < SIGBUF_SIZE → view (sampleprocess s x).1 = view s ++ [x]) ∧
    (s.recordcount = SIGBUF_SIZE →
      view (sampleprocess s x).1 = (view s).tail ++ [x]) :=
  ⟨fun hlt => view_sampleprocess_lt s (inv_reachable s h).bounds x hlt,
   fun hfull => view_sampleprocess_full s (inv_reachable s h).bounds x hfull⟩

theorem view_append_refines_fifo_witness :
    Reachable (appendAll (main (fun _ => 0)) [3, 4, 5]) ∧
    (((appendAll (main (fun _ => 0)) [3, 4, 5]).recordcount < SIGBUF_SIZE →
      view (sampleprocess (appendAll (main (fun _ => 0)) [3, 4, 5]) 6).1
        = view (appendAll (main (fun _ => 0)) [3, 4, 5]) ++ [6]) ∧
    ((appendAll (main (fun _ => 0)) [3, 4, 5]).recordcount = SIGBUF_SIZE →
      view (sampleprocess (appendAll (main (fun _ => 0)) [3, 4, 5]) 6).1
        = (view (appendAll (main (fun _ => 0)) [3, 4, 5])).tail ++ [6])) :=
  ⟨reachable_appendAll _ (Reachable.startup _) _,
   view_append_refines_fifo _ (reachable_appendAll _ (Reachable.startup _) _) 6⟩

/-- C3.  After appending `v0 .. v(n-1)` (with `n ≥ 1`) to the start-up buffer,
`printdata(amt)` with `amt ≥ 0` prints exactly `min amt (min n SIGBUF_SIZE)`
sample lines, and the `i`-th printed sample is `v(max 0 (n - SIGBUF_SIZE) + i)`:
the oldest retained samples are listed first. -/
theorem printdata_lists_oldest_first (mem : Int → ℚ) (vs : List ℚ)
    (hn : 1 ≤ vs.length) (amt : Int) (hamt : 0 ≤ amt) :
    (printedSamples (printdata (appendAll (main mem) vs) amt).2).length
        = min amt.toNat (min vs.length SIGBUF_SIZE.toNat) ∧
    ∀ i : Nat, i < min amt.toNat (min vs.length SIGBUF_SIZE.toNat) →
      vs.length - SIGBUF_SIZE.toNat + i < vs.length ∧
      (printedSamples (printdata (appendAll (main mem) vs) amt).2)[i]?
        = vs[vs.length - SIGBUF_SIZE.toNat + i]? := by
  rw [printdata_after_appends mem vs hn amt hamt]
  have e : SIGBUF_SIZE.toNat = 120 := rfl
  rw [e]
  refine ⟨?_, ?_⟩
  · rw [List.length_take, List.length_drop]
    omega
  · intro i hi
    refine ⟨by omega, ?_⟩
    rw [List.getElem?_take_of_lt (by omega), List.getElem?_drop]

theorem printdata_lists_oldest_first_witness :
    1 ≤ ramp.length ∧ (0 : Int) ≤ 2 ∧
    ((printedSamples (printdata (appendAll (main (fun _ => 0)) ramp) 2).2).length
        = min (2 : Int).toNat (min ramp.length SIGBUF_SIZE.toNat) ∧
    ∀ i : Nat, i < min (2 : Int).toNat (min ramp.length SIGBUF_SIZE.toNat) →
      ramp.length - SIGBUF_SIZE.toNat + i < ramp.length ∧
      (printedSamples (printdata (appendAll (main (fun _ => 0)) ramp) 2).2)[i]?
        = ramp[ramp.length - SIGBUF_SIZE.toNat + i]?) :=
  ⟨by rw [ramp_length]; decide, by decide,
   printdata_lists_oldest_first (fun _ => 0) ramp (by rw [ramp_length]; decide) 2 (by decide)⟩

/-- C4, as amended.  For a buffer filled past capacity with `v0 .. v(N-1)`
(`N > SIGBUF_SIZE`), `printdata(k)` with `0 ≤ k ≤ SIGBUF_SIZE` prints exactly
`k` samples, the `k` oldest retained values
`v(N - SIGBUF_SIZE) .. v(N - SIGBUF_SIZE + k - 1)` in append order; these are
the last `k` appended values when `k = SIGBUF_SIZE`. -/
theorem printdata_past_capacity (mem : Int → ℚ) (vs : List ℚ)
    (hN : SIGBUF_SIZE.toNat < vs.length) (k : Int) (hk0 : 0 ≤ k)
    (hk : k ≤ SIGBUF_SIZE) :
    printedSamples (printdata (appendAll (main mem) vs) k).2
        = (vs.drop (vs.length - SIGBUF_SIZE.toNat)).take k.toNat ∧
    (printedSamples (printdata (appendAll (main mem) vs) k).2).length = k.toNat ∧
    (k = SIGBUF_SIZE →
      printedSamples (printdata (appendAll (main mem) vs) k).2
        = vs.drop (vs.length - k.toNat)) := by
  have e : SIGBUF_SIZE.toNat = 120 := rfl
  simp only [SIGBUF_SIZE] at hk
  rw [e] at hN ⊢
  have h := printdata_after_appends mem vs (by omega) k hk0
  refine ⟨h, ?_, ?_⟩
  · rw [h, List.length_take, List.length_drop]
    omega
  · intro hk1
    rw [h, hk1, e]
    apply List.take_of_length_le
    rw [List.length_drop]
    omega

theorem printdata_past_capacity_witness :
    SIGBUF_SIZE.toNat < ramp.length ∧ (0 : Int) ≤ 2 ∧ (2 : Int) ≤ SIGBUF_SIZE ∧
    (printedSamples (printdata (appendAll (main (fun _ => 0)) ramp) 2).2
        = (ramp.drop (ramp.length - SIGBUF_SIZE.toNat)).take (2 : Int).toNat ∧
    (printedSamples (printdata (appendAll (main (fun _ => 0)) ramp) 2).2).length
        = (2 : Int).toNat ∧
    ((2 : Int) = SIGBUF_SIZE →
      printedSamples (printdata (appendAll (main (fun _ => 0)) ramp) 2).2
        = ramp.drop (ramp.length - (2 : Int).toNat))) :=
  ⟨by rw [ramp_length]; decide, by decide, by decide,
   printdata_past_capacity (fun _ => 0) ramp (by rw [ramp_length]; decide) 2
    (by decide) (by decide)⟩

/-- C4 as stated fails: after the 121 readings `1 .. 121`, `printdata(1)` does
not print the last appended value `121`; it prints the oldest retained value
`2`. -/
theorem printdata_last_k_refuted :
    SIGBUF_SIZE.toNat < ramp.length ∧ (1 : Int) ≤ SIGBUF_SIZE ∧
    printedSamples (printdata (appendAll (main (fun _ => 0)) ramp) 1).2 = [2] ∧
    ramp.drop (ramp.length - (1 : Int).toNat) = [121] ∧
    printedSamples (printdata (appendAll (main (fun _ => 0)) ramp) 1).2
      ≠ ramp.drop (ramp.length - (1 : Int).toNat) := by
  have hp : printedSamples (printdata (appendAll (main (fun _ => 0)) ramp) 1).2 = [2] := by
    rw [printdata_after_appends _ ramp (by rw [ramp_length]; decide) 1 (by decide)]
    apply List.ext_getElem?
    intro i
    rcases i with _ | i
    · rw [List.getElem?_take_of_lt (by decide), List.getElem?_drop, ramp_length,
        ramp_get _ (by decide)]
      norm_num
    · have e : (1 : Int).toNat = 1 := rfl
      rw [e, List.getElem?_eq_none (by rw [List.length_take]; omega)]
      rfl
  have hl : ramp.drop (ramp.length - (1 : Int).toNat) = [121] := by
    apply List.ext_getElem?
    intro i
    rcases i with _ | i
    · rw [List.getElem?_drop, ramp_length, ramp_get _ (by decide)]
      norm_num
    · rw [List.getElem?_drop, ramp_length,
        List.getElem?_eq_none (by rw [ramp_length]; omega)]
      rfl
  refine ⟨by rw [ramp_length]; decide, by decide, hp, hl, ?_⟩
  rw [hp, hl]
  intro h
  have := List.head_eq_of_cons_eq h
  norm_num at this

/-- C5.  From a reachable state with `recordcount > 0`, `deletedata(amt)` with
`0 ≤ amt ≤ recordcount` removes exactly the `amt` oldest samples: the count
drops by `amt`, the cursor is unchanged, and the oldest-first view loses its
first `amt` elements. -/
theorem deletedata_removes_oldest (s : State) (h : Reachable s)
    (hrc : 0 < s.recordcount) (amt : Int) (h0 : 0 ≤ amt) (h1 : amt ≤ s.recordcount) :
    (deletedata s amt).1.recordcount = s.recordcount - amt ∧
    (deletedata s amt).1.sigbufpos = s.sigbufpos ∧
    view (deletedata s amt).1 = (view s).drop amt.toNat := by
  refine ⟨?_, deletedata_pos s amt, view_deletedata s (inv_reachable s h) amt h0 h1 hrc⟩
  rw [deletedata_count s amt (by omega)]
  unfold clamp
  rw [if_neg (by omega)]

theorem deletedata_removes_oldest_witness :
    Reachable (appendAll (main (fun _ => 0)) [2, 3, 4, 5]) ∧
    0 < (appendAll (main (fun _ => 0)) [2, 3, 4, 5]).recordcount ∧
    (0 : Int) ≤ 2 ∧ 2 ≤ (appendAll (main (fun _ => 0)) [2, 3, 4, 5]).recordcount ∧
    ((deletedata (appendAll (main (fun _ => 0)) [2, 3, 4, 5]) 2).1.recordcount
        = (appendAll (main (fun _ => 0)) [2, 3, 4, 5]).recordcount - 2 ∧
     (deletedata (appendAll (main (fun _ => 0)) [2, 3, 4, 5]) 2).1.sigbufpos
        = (appendAll (main (fun _ => 0)) [2, 3, 4, 5]).sigbufpos ∧
     view (deletedata (appendAll (main (fun _ => 0)) [2, 3, 4, 5]) 2).1
        = (view (appendAll (main (fun _ => 0)) [2, 3, 4, 5])).drop (2 : Int).toNat) :=
  ⟨reachable_appendAll _ (Reachable.startup _) _, by decide, by decide, by decide,
   deletedata_removes_oldest _ (reachable_appendAll _ (Reachable.startup _) _)
    (by decide) 2 (by decide) (by decide)⟩

/-- C6.  From a reachable state with `recordcount = c > 0`, `deletedata(amt)`
with `amt > c` removes exactly `c` records: the number reported in the lines
`Deleting %i records` and `%i records deleted` is `c`, afterwards
`recordcount = 0`, and every slot of the buffer is zero. -/
theorem deletedata_clamps (s : State) (h : Reachable s) (hrc : 0 < s.recordcount)
    (amt : Int) (hamt : s.recordcount < amt) :
    (∀ n : Int, Event.deleting n ∈ (deletedata s amt).2 ↔ n = s.recordcount) ∧
    (∀ n : Int, Event.deleted n ∈ (deletedata s amt).2 ↔ n = s.recordcount) ∧
    (deletedata s amt).1.recordcount = 0 ∧
    ∀ j : Int, 0 ≤ j → j < SIGBUF_SIZE → (deletedata s amt).1.sigbuffer j = 0 := by
  have hne : s.recordcount ≠ 0 := by omega
  have hcl : clamp s amt = s.recordcount := by
    unfold clamp
    rw [if_pos hamt]
  have hc : (deletedata s amt).1.recordcount = 0 := by
    rw [deletedata_count s amt hne, hcl]
    omega
  have hi := inv_deletedata s (inv_reachable s h) amt (by omega)
  have htr : (deletedata s amt).2
      = [Event.recordsInMemory s.recordcount, Event.detach]
        ++ (if s.sampleenable then [Event.signalWait] else [])
        ++ [Event.deleting s.recordcount,
            Event.divide (deleteLoop s s.recordcount).1 (s.recordcount - s.recordcount),
            Event.deleted s.recordcount]
        ++ (if s.sampleenable then [Event.attach] else []) := by
    unfold deletedata
    rw [if_neg hne]
    simp only [hcl]
  refine ⟨?_, ?_, hc, ?_⟩
  · intro n
    rw [htr]
    cases s.sampleenable <;> simp
  · intro n
    rw [htr]
    cases s.sampleenable <;> simp
  · intro j j0 j1
    apply hi.zeroFill j j0 j1
    rw [hc]
    simp only [SIGBUF_SIZE]
    omega

theorem deletedata_clamps_witness :
    Reachable (appendAll (main (fun _ => 0)) [2, 3, 4, 5]) ∧
    0 < (appendAll (main (fun _ => 0)) [2, 3, 4, 5]).recordcount ∧
    (appendAll (main (fun _ => 0)) [2, 3, 4, 5]).recordcount < 10 ∧
    ((∀ n : Int, Event.deleting n ∈ (deletedata (appendAll (main (fun _ => 0)) [2, 3, 4, 5]) 10).2
        ↔ n = (appendAll (main (fun _ => 0)) [2, 3, 4, 5]).recordcount) ∧
     (∀ n : Int, Event.deleted n ∈ (deletedata (appendAll (main (fun _ => 0)) [2, 3, 4, 5]) 10).2
        ↔ n = (appendAll (main (fun _ => 0)) [2, 3, 4, 5]).recordcount) ∧
     (deletedata (appendAll (main (fun _ => 0)) [2, 3, 4, 5]) 10).1.recordcount = 0 ∧
     ∀ j : Int, 0 ≤ j → j < SIGBUF_SIZE →
      (deletedata (appendAll (main (fun _ => 0)) [2, 3, 4, 5]) 10).1.sigbuffer j = 0) :=
  ⟨reachable_appendAll _ (Reachable.startup _) _, by decide, by decide,
   deletedata_clamps _ (reachable_appendAll _ (Reachable.startup _) _) (by decide) 10
    (by decide)⟩

/-- C7.  In every reachable state with `recordcount > 0` the stored average
equals `runningtotal / recordcount` and equals the arithmetic mean of the
`recordcount` retained samples (the oldest-first view). -/
theorem average_is_mean (s : State) (h : Reachable s) (hrc : 0 < s.recordcount) :
    s.average = s.runningtotal / (s.recordcount : ℚ) ∧
    s.average = (view s).sum / (s.recordcount : ℚ) ∧
    ((view s).length : Int) = s.recordcount := by
  have hi := inv_reachable s h
  refine ⟨hi.avg hrc, ?_, ?_⟩
  · rw [hi.avg hrc, view_sum s hi, hi.total]
  · rw [view_length]
    omega

theorem average_is_mean_witness :
    Reachable (appendAll (main (fun _ => 0)) [3, 4, 5]) ∧
    0 < (appendAll (main (fun _ => 0)) [3, 4, 5]).recordcount ∧
    ((appendAll (main (fun _ => 0)) [3, 4, 5]).average
        = (appendAll (main (fun _ => 0)) [3, 4, 5]).runningtotal
          / ((appendAll (main (fun _ => 0)) [3, 4, 5]).recordcount : ℚ) ∧
     (appendAll (main (fun _ => 0)) [3, 4, 5]).average
        = (view (appendAll (main (fun _ => 0)) [3, 4, 5])).sum
          / ((appendAll (main (fun _ => 0)) [3, 4, 5]).recordcount : ℚ) ∧
     ((view (appendAll (main (fun _ => 0)) [3, 4, 5])).length : Int)
        = (appendAll (main (fun _ => 0)) [3, 4, 5]).recordcount) :=
  ⟨reachable_appendAll _ (Reachable.startup _) _, by decide,
   average_is_mean _ (reachable_appendAll _ (Reachable.startup _) _) (by decide)⟩

/-- C8 fails on the code.  After one acquisition step from start-up,
`deletedata(1)` removes the only record and then performs the division
`runningtotal / recordcount` of line 184 with `recordcount = 0`. -/
theorem deletedata_divides_by_zero :
    Reachable (sampleprocess (main (fun _ => 0)) 1).1 ∧
    divisors (deletedata (sampleprocess (main (fun _ => 0)) 1).1 1).2 = [0] := by
  refine ⟨Reachable.acquire _ _ (Reachable.startup _), ?_⟩
  simp [deletedata, sampleprocess, main, clamp, divisors, SIGBUF_SIZE]

/-- C9.  Capacity bound: in every reachable state
`0 ≤ recordcount ≤ SIGBUF_SIZE` and `0 ≤ sigbufpos < SIGBUF_SIZE`. -/
theorem capacity_bound (s : State) (h : Reachable s) :
    0 ≤ s.recordcount ∧ s.recordcount ≤ SIGBUF_SIZE ∧
    0 ≤ s.sigbufpos ∧ s.sigbufpos < SIGBUF_SIZE :=
  (inv_reachable s h).bounds

theorem capacity_bound_witness :
    Reachable (appendAll (main (fun _ => 0)) ramp) ∧
    (0 ≤ (appendAll (main (fun _ => 0)) ramp).recordcount ∧
     (appendAll (main (fun _ => 0)) ramp).recordcount ≤ SIGBUF_SIZE ∧
     0 ≤ (appendAll (main (fun _ => 0)) ramp).sigbufpos ∧
     (appendAll (main (fun _ => 0)) ramp).sigbufpos < SIGBUF_SIZE) :=
  ⟨reachable_appendAll _ (Reachable.startup _) _,
   capacity_bound _ (reachable_appendAll _ (Reachable.startup _) _)⟩

/-- C10.  In every state with `recordcount = 0`, and for every `amt`, both
`printdata(amt)` and `deletedata(amt)` output exactly the line
`No records in memory` and leave the whole state unchanged. -/
theorem empty_buffer_reported (s : State) (amt : Int) (h : s.recordcount = 0) :
    printdata s amt = (s, [Event.noRecords]) ∧
    deletedata s amt = (s, [Event.noRecords]) := by
  constructor
  · simp [printdata, h]
  · simp [deletedata, h]

theorem empty_buffer_reported_witness :
    (main (fun _ => 0)).recordcount = 0 ∧
    printdata (main (fun _ => 0)) 10 = (main (fun _ => 0), [Event.noRecords]) ∧
    deletedata (main (fun _ => 0)) 10 = (main (fun _ => 0), [Event.noRecords]) :=
  ⟨rfl, empty_buffer_reported (main (fun _ => 0)) 10 rfl⟩

/-! ## The trigger flag under the commands -/

theorem deletedata_flags (s : State) (amt : Int) :
    (deletedata s amt).1.sampleenable = s.sampleenable ∧
      ((deletedata s amt).1.armed = s.armed ∨
        (deletedata s amt).1.armed = s.sampleenable) := by
  by_cases h : s.recordcount = 0
  · rw [deletedata_empty s amt h]
    exact ⟨rfl, Or.inl rfl⟩
  · rw [deletedata_state s amt h]
    exact ⟨rfl, Or.inr rfl⟩

theorem printdata_flags (s : State) (amt : Int) :
    (printdata s amt).1.sampleenable = s.sampleenable ∧
      ((printdata s amt).1.armed = s.armed ∨
        (printdata s amt).1.armed = s.sampleenable) := by
  rcases printdata_state s amt with e | e <;> rw [e]
  · exact ⟨rfl, Or.inl rfl⟩
  · exact ⟨rfl, Or.inr rfl⟩

theorem perform_armed (s : State) (a : Action) (h : s.armed = s.sampleenable) :
    (perform s a).armed = (perform s a).sampleenable := by
  cases a with
  | samplingOn => rfl
  | samplingOff => rfl
  | invalidArgument => exact h
  | nonInteger => exact h
  | notRecognized => exact h
  | print arg =>
    obtain ⟨e, c | c⟩ := printdata_flags s arg
    · show (printdata s arg).1.armed = (printdata s arg).1.sampleenable
      rw [e, c, h]
    · show (printdata s arg).1.armed = (printdata s arg).1.sampleenable
      rw [e, c]
  | delete arg =>
    obtain ⟨e, c | c⟩ := deletedata_flags s arg
    · show (deletedata s arg).1.armed = (deletedata s arg).1.sampleenable
      rw [e, c, h]
    · show (deletedata s arg).1.armed = (deletedata s arg).1.sampleenable
      rw [e, c]

theorem run_armed (s : State) (h : Run s) : s.armed = s.sampleenable := by
  induction h with
  | startup mem => rfl
  | acquire s x _ ih => exact ih
  | command s c a _ ih => exact perform_armed s _ ih

/-! ## The parser `stringtoint` -/

theorem wrap32_id (x : Int) (h0 : 0 ≤ x) (h1 : x < 2147483648) : wrap32 x = x := by
  unfold wrap32
  omega

theorem stringtointLoop_nondigit (cs : List Nat) (t : Int)
    (h : ∃ c ∈ cs, c < 48 ∨ 57 < c) : stringtointLoop t cs = -1 := by
  induction cs generalizing t with
  | nil =>
    obtain ⟨c, hc, _⟩ := h
    cases hc
  | cons a cs ih =>
    unfold stringtointLoop
    by_cases ha : a < 48 ∨ a > 57
    · rw [if_pos ha]
    · rw [if_neg ha]
      apply ih
      obtain ⟨c, hc, hcd⟩ := h
      rcases List.mem_cons.mp hc with e | e
      · subst e
        exact absurd hcd ha
      · exact ⟨c, e, hcd⟩

theorem decimalValue_cons (c : Nat) (cs : List Nat) :
    decimalValue (c :: cs) = (c - 48) * 10 ^ cs.length + decimalValue cs := by
  simp only [decimalValue, List.reverse_cons, List.map_append, List.map_cons, List.map_nil,
    Nat.ofDigits_append, Nat.ofDigits_singleton, List.length_map, List.length_reverse]
  ring

theorem stringtointLoop_digits (cs : List Nat) (t : Nat)
    (hd : ∀ c ∈ cs, 48 ≤ c ∧ c ≤ 57) (hb : (t + 1) * 10 ^ cs.length ≤ 10 ^ 9) :
    stringtointLoop (t : Int) cs = ((t * 10 ^ cs.length + decimalValue cs : Nat) : Int) := by
  induction cs generalizing t with
  | nil => simp [stringtointLoop, decimalValue]
  | cons a cs ih =>
    obtain ⟨a0, a1⟩ := hd a (List.mem_cons_self a cs)
    have hpos : 1 ≤ 10 ^ cs.length := Nat.one_le_pow _ _ (by decide)
    have hb2 : (t + 1) * 10 * 10 ^ cs.length ≤ 10 ^ 9 := by
      rw [List.length_cons, pow_succ] at hb
      calc (t + 1) * 10 * 10 ^ cs.length = (t + 1) * (10 ^ cs.length * 10) := by ring
        _ ≤ 10 ^ 9 := hb
    have hb3 : (t + 1) * 10 ≤ 10 ^ 9 :=
      le_trans (Nat.le_mul_of_pos_right _ hpos) hb2
    have hb4 : (t * 10 + (a - 48) + 1) * 10 ^ cs.length ≤ 10 ^ 9 :=
      le_trans (Nat.mul_le_mul_right _ (by omega)) hb2
    have hb5 : (t : Int) * 10 + 10 ≤ 1000000000 := by
      have : (t + 1) * 10 ≤ 1000000000 := by simpa using hb3
      omega
    unfold stringtointLoop
    rw [if_neg (by omega), wrap32_id ((t : Int) * 10) (by omega) (by omega),
      wrap32_id _ (by omega) (by omega)]
    have e : (t : Int) * 10 + ((a : Int) - 48) = ((t * 10 + (a - 48) : Nat) : Int) := by
      omega
    rw [e, ih (t * 10 + (a - 48)) (fun c hc => hd c (List.mem_cons_of_mem a hc)) hb4,
      decimalValue_cons, List.length_cons, pow_succ]
    congr 1
    ring

theorem stringtoint_digits (str : List Nat) (hd : ∀ c ∈ str, 48 ≤ c ∧ c ≤ 57)
    (hlen : str.length ≤ 9) : stringtoint str = (decimalValue str : Int) := by
  have hb : (0 + 1) * 10 ^ str.length ≤ 10 ^ 9 := by
    rw [Nat.zero_add, Nat.one_mul]
    exact Nat.pow_le_pow_right (by decide) hlen
  have h := stringtointLoop_digits str 0 hd hb
  simp only [Nat.zero_mul, Nat.zero_add] at h
  exact h

/-! ## Main results, continued -/

/-- C11.  Inspect is read-only on the buffer: for every state and every
`amt`, `printdata(amt)` leaves `sigbuffer` (every slot), `sigbufpos`,
`recordcount`, `runningtotal` and `average` unchanged. -/
theorem printdata_read_only (s : State) (amt : Int) :
    (printdata s amt).1.sigbuffer = s.sigbuffer ∧
    (printdata s amt).1.sigbufpos = s.sigbufpos ∧
    (printdata s amt).1.recordcount = s.recordcount ∧
    (printdata s amt).1.runningtotal = s.runningtotal ∧
    (printdata s amt).1.average = s.average := by
  rcases printdata_state s amt with e | e <;> rw [e] <;> exact ⟨rfl, rfl, rfl, rfl, rfl⟩

/-- C13.  The trigger is armed exactly when sampling is enabled: after
start-up and after every dispatched command, with acquisition steps in
between, `armed = sampleenable`; in particular `printdata` and `deletedata`
issued while sampling is disabled leave it disabled and the trigger
disarmed. -/
theorem armed_iff_sampleenable (s : State) (h : Run s) :
    s.armed = s.sampleenable ∧
    ∀ amt : Int, s.sampleenable = false →
      ((printdata s amt).1.sampleenable = false ∧ (printdata s amt).1.armed = false) ∧
      ((deletedata s amt).1.sampleenable = false ∧ (deletedata s amt).1.armed = false) := by
  have ha := run_armed s h
  refine ⟨ha, ?_⟩
  intro amt hoff
  obtain ⟨ep, _⟩ := printdata_flags s amt
  obtain ⟨ed, _⟩ := deletedata_flags s amt
  have ap := perform_armed s (Action.print amt) ha
  have ad := perform_armed s (Action.delete amt) ha
  simp only [perform] at ap ad
  rw [ep] at ap
  rw [ed] at ad
  rw [ep, ed, ap, ad, hoff]
  exact ⟨⟨rfl, rfl⟩, ⟨rfl, rfl⟩⟩

theorem armed_iff_sampleenable_witness :
    Run (perform (perform (sampleprocess (main (fun _ => 0)) 1).1
        (decode strSampling strOff)) (decode strPrint [53])) ∧
    ((perform (perform (sampleprocess (main (fun _ => 0)) 1).1
        (decode strSampling strOff)) (decode strPrint [53])).armed
      = (perform (perform (sampleprocess (main (fun _ => 0)) 1).1
        (decode strSampling strOff)) (decode strPrint [53])).sampleenable ∧
    ∀ amt : Int,
      (perform (perform (sampleprocess (main (fun _ => 0)) 1).1
        (decode strSampling strOff)) (decode strPrint [53])).sampleenable = false →
      ((printdata (perform (perform (sampleprocess (main (fun _ => 0)) 1).1
          (decode strSampling strOff)) (decode strPrint [53])) amt).1.sampleenable = false ∧
       (printdata (perform (perform (sampleprocess (main (fun _ => 0)) 1).1
          (decode strSampling strOff)) (decode strPrint [53])) amt).1.armed = false) ∧
      ((deletedata (perform (perform (sampleprocess (main (fun _ => 0)) 1).1
          (decode strSampling strOff)) (decode strPrint [53])) amt).1.sampleenable = false ∧
       (deletedata (perform (perform (sampleprocess (main (fun _ => 0)) 1).1
          (decode strSampling strOff)) (decode strPrint [53])) amt).1.armed = false)) :=
  ⟨Run.command _ _ _ (Run.command _ _ _ (Run.acquire _ _ (Run.startup _))),
   armed_iff_sampleenable _
    (Run.command _ _ _ (Run.command _ _ _ (Run.acquire _ _ (Run.startup _))))⟩

/-- C14.  Fast path: when `sampleenable` is false, the traces of
`printdata(amt)` and `deletedata(amt)` contain no wait on `SAMPLE_DONE`, for
every buffer state and every `amt`. -/
theorem fast_path_no_wait (s : State) (amt : Int) (h : s.sampleenable = false) :
    Event.signalWait ∉ (printdata s amt).2 ∧
    Event.signalWait ∉ (deletedata s amt).2 := by
  by_cases hrc : s.recordcount = 0
  · constructor
    · simp [printdata, hrc]
    · simp [deletedata, hrc]
  · constructor
    · simp [printdata, hrc, h]
    · simp [deletedata, hrc, h]

theorem fast_path_no_wait_witness :
    (samplingOff (sampleprocess (main (fun _ => 0)) 1).1).sampleenable = false ∧
    (Event.signalWait ∉ (printdata (samplingOff (sampleprocess (main (fun _ => 0)) 1).1) 5).2 ∧
     Event.signalWait ∉ (deletedata (samplingOff (sampleprocess (main (fun _ => 0)) 1).1) 5).2) :=
  ⟨rfl, fast_path_no_wait _ 5 rfl⟩

/-- C16.  Zero-fill invariant: in every reachable state, every slot of
`sigbuffer` outside the window of the `recordcount` retained samples (the slots
`(sigbufpos + SIGBUF_SIZE - recordcount + i) % SIGBUF_SIZE`,
`i = 0 .. recordcount - 1`) holds `0`; in particular, when
`recordcount < SIGBUF_SIZE` the slot at `sigbufpos` holds `0`. -/
theorem zero_fill_outside_window (s : State) (h : Reachable s) :
    (∀ j : Int, 0 ≤ j → j < SIGBUF_SIZE →
      (∀ i : Int, 0 ≤ i → i < s.recordcount →
        j ≠ (s.sigbufpos + SIGBUF_SIZE - s.recordcount + i) % SIGBUF_SIZE) →
      s.sigbuffer j = 0) ∧
    (s.recordcount < SIGBUF_SIZE → s.sigbuffer s.sigbufpos = 0) := by
  have hi := inv_reachable s h
  obtain ⟨h0, h1, h2, h3⟩ := hi.bounds
  simp only [SIGBUF_SIZE] at h1 h3
  constructor
  · intro j j0 j1 hout
    apply hi.zeroFill j j0 j1
    simp only [SIGBUF_SIZE] at j1 hout ⊢
    by_contra c
    exact hout (s.recordcount - 1 - (s.sigbufpos - 1 - j) % 120) (by omega) (by omega)
      (by omega)
  · intro hlt
    apply hi.zeroFill _ h2 (by simpa [SIGBUF_SIZE] using h3)
    simp only [SIGBUF_SIZE] at hlt ⊢
    omega

theorem zero_fill_outside_window_witness :
    Reachable (deletedata (appendAll (main (fun _ => 0)) [2, 3, 4, 5]) 2).1 ∧
    ((∀ j : Int, 0 ≤ j → j < SIGBUF_SIZE →
      (∀ i : Int, 0 ≤ i →
        i < (deletedata (appendAll (main (fun _ => 0)) [2, 3, 4, 5]) 2).1.recordcount →
        j ≠ ((deletedata (appendAll (main (fun _ => 0)) [2, 3, 4, 5]) 2).1.sigbufpos
              + SIGBUF_SIZE
              - (deletedata (appendAll (main (fun _ => 0)) [2, 3, 4, 5]) 2).1.recordcount
              + i) % SIGBUF_SIZE) →
      (deletedata (appendAll (main (fun _ => 0)) [2, 3, 4, 5]) 2).1.sigbuffer j = 0) ∧
    ((deletedata (appendAll (main (fun _ => 0)) [2, 3, 4, 5]) 2).1.recordcount < SIGBUF_SIZE →
      (deletedata (appendAll (main (fun _ => 0)) [2, 3, 4, 5]) 2).1.sigbuffer
        (deletedata (appendAll (main (fun _ => 0)) [2, 3, 4, 5]) 2).1.sigbufpos = 0)) :=
  ⟨Reachable.delete _ _ (reachable_appendAll _ (Reachable.startup _) _) (by decide),
   zero_fill_outside_window _
    (Reachable.delete _ _ (reachable_appendAll _ (Reachable.startup _) _) (by decide))⟩

/-! ## Buffer reads and the freeze -/

theorem printdata_trace (s : State) (amt : Int) (he : s.sampleenable = true)
    (hrc : s.recordcount ≠ 0) :
    (printdata s amt).2
      = [Event.recordsInMemory s.recordcount, Event.averageValue s.average, Event.detach,
          Event.signalWait, Event.printing (clamp s amt)]
        ++ (List.range (clamp s amt).toNat).map
            (fun i => Event.record (slot s i) (s.sigbuffer (slot s i)))
        ++ [Event.attach] := by
  simp [printdata, hrc, he]

theorem deletedata_trace (s : State) (amt : Int) (he : s.sampleenable = true)
    (hrc : s.recordcount ≠ 0) :
    (deletedata s amt).2
      = [Event.recordsInMemory s.recordcount, Event.detach, Event.signalWait,
          Event.deleting (clamp s amt),
          Event.divide (deleteLoop s (clamp s amt)).1 (s.recordcount - clamp s amt),
          Event.deleted (clamp s amt), Event.attach] := by
  simp [deletedata, hrc, he]

/-- C12, as amended.  With sampling enabled, the event traces of
`printdata(amt)` and `deletedata(amt)` are as follows.  On an empty buffer the
whole run is the report `No records in memory`: the state, armed flag
included, is unchanged, and the trace holds no disarm, no wait and no re-arm.
On a non-empty buffer the trace is, in this order: the report of `recordcount`
(and, in `printdata`, of `average`); the disarm `sampler.detach`; the wait on
`SAMPLE_DONE`; the report of the clamped amount; in `printdata` the listed
samples, read from `sigbuffer` oldest first, in `deletedata` the division of
the running total by the count, both as left by the deletion loop, and the
report of the number deleted; and last the re-arm `sampler.attach`. -/
theorem freeze_precedes_buffer_walk (s : State) (amt : Int)
    (he : s.sampleenable = true) :
    (s.recordcount = 0 →
      printdata s amt = (s, [Event.noRecords]) ∧
      deletedata s amt = (s, [Event.noRecords]) ∧
      readsBeforeFreeze (printdata s amt).2 = [Event.noRecords] ∧
      readsBeforeFreeze (deletedata s amt).2 = [Event.noRecords]) ∧
    (s.recordcount ≠ 0 →
      (printdata s amt).2
        = [Event.recordsInMemory s.recordcount, Event.averageValue s.average,
            Event.detach, Event.signalWait, Event.printing (clamp s amt)]
          ++ (List.range (clamp s amt).toNat).map
              (fun i => Event.record (slot s i) (s.sigbuffer (slot s i)))
          ++ [Event.attach] ∧
      (deletedata s amt).2
        = [Event.recordsInMemory s.recordcount, Event.detach, Event.signalWait,
            Event.deleting (clamp s amt),
            Event.divide (deletedata s amt).1.runningtotal (deletedata s amt).1.recordcount,
            Event.deleted (clamp s amt), Event.attach] ∧
      (deletedata s amt).1.runningtotal = (deleteLoop s (clamp s amt)).1 ∧
      (deletedata s amt).1.sigbuffer = (deleteLoop s (clamp s amt)).2 ∧
      (deletedata s amt).1.recordcount = s.recordcount - clamp s amt ∧
      readsBeforeFreeze (printdata s amt).2
        = [Event.recordsInMemory s.recordcount, Event.averageValue s.average] ∧
      fromFreeze (printdata s amt).2
        = [Event.signalWait, Event.printing (clamp s amt)]
          ++ (List.range (clamp s amt).toNat).map
              (fun i => Event.record (slot s i) (s.sigbuffer (slot s i)))
          ++ [Event.attach] ∧
      readsBeforeFreeze (deletedata s amt).2 = [Event.recordsInMemory s.recordcount] ∧
      fromFreeze (deletedata s amt).2
        = [Event.signalWait, Event.deleting (clamp s amt),
            Event.divide (deleteLoop s (clamp s amt)).1 (s.recordcount - clamp s amt),
            Event.deleted (clamp s amt), Event.attach]) := by
  constructor
  · intro hrc
    have hp : printdata s amt = (s, [Event.noRecords]) := by simp [printdata, hrc]
    have hd := deletedata_empty s amt hrc
    rw [hp, hd]
    exact ⟨rfl, rfl, rfl, rfl⟩
  · intro hrc
    have hst := deletedata_state s amt hrc
    have e1 : (deletedata s amt).1.runningtotal = (deleteLoop s (clamp s amt)).1 := by
      rw [hst]
    have e2 : (deletedata s amt).1.sigbuffer = (deleteLoop s (clamp s amt)).2 := by
      rw [hst]
    have e3 : (deletedata s amt).1.recordcount = s.recordcount - clamp s amt := by
      rw [hst]
    rw [e1, e3, printdata_trace s amt he hrc, deletedata_trace s amt he hrc]
    exact ⟨rfl, rfl, rfl, e2, rfl, rfl, rfl, rfl, rfl⟩

theorem freeze_precedes_buffer_walk_witness :
    oneRecord.sampleenable = true ∧
    ((oneRecord.recordcount = 0 →
       printdata oneRecord 1 = (oneRecord, [Event.noRecords]) ∧
       deletedata oneRecord 1 = (oneRecord, [Event.noRecords]) ∧
       readsBeforeFreeze (printdata oneRecord 1).2 = [Event.noRecords] ∧
       readsBeforeFreeze (deletedata oneRecord 1).2 = [Event.noRecords]) ∧
     (oneRecord.recordcount ≠ 0 →
       (printdata oneRecord 1).2
         = [Event.recordsInMemory oneRecord.recordcount, Event.averageValue oneRecord.average,
             Event.detach, Event.signalWait, Event.printing (clamp oneRecord 1)]
           ++ (List.range (clamp oneRecord 1).toNat).map
               (fun i => Event.record (slot oneRecord i) (oneRecord.sigbuffer (slot oneRecord i)))
           ++ [Event.attach] ∧
       (deletedata oneRecord 1).2
         = [Event.recordsInMemory oneRecord.recordcount, Event.detach, Event.signalWait,
             Event.deleting (clamp oneRecord 1),
             Event.divide (deletedata oneRecord 1).1.runningtotal (deletedata oneRecord 1).1.recordcount,
             Event.deleted (clamp oneRecord 1), Event.attach] ∧
       (deletedata oneRecord 1).1.runningtotal = (deleteLoop oneRecord (clamp oneRecord 1)).1 ∧
       (deletedata oneRecord 1).1.sigbuffer = (deleteLoop oneRecord (clamp oneRecord 1)).2 ∧
       (deletedata oneRecord 1).1.recordcount = oneRecord.recordcount - clamp oneRecord 1 ∧
       readsBeforeFreeze (printdata oneRecord 1).2
         = [Event.recordsInMemory oneRecord.recordcount, Event.averageValue oneRecord.average] ∧
       fromFreeze (printdata oneRecord 1).2
         = [Event.signalWait, Event.printing (clamp oneRecord 1)]
           ++ (List.range (clamp oneRecord 1).toNat).map
               (fun i => Event.record (slot oneRecord i) (oneRecord.sigbuffer (slot oneRecord i)))
           ++ [Event.attach] ∧
       readsBeforeFreeze (deletedata oneRecord 1).2 = [Event.recordsInMemory oneRecord.recordcount] ∧
       fromFreeze (deletedata oneRecord 1).2
         = [Event.signalWait, Event.deleting (clamp oneRecord 1),
             Event.divide (deleteLoop oneRecord (clamp oneRecord 1)).1 (oneRecord.recordcount - clamp oneRecord 1),
             Event.deleted (clamp oneRecord 1), Event.attach])) :=
  ⟨rfl, freeze_precedes_buffer_walk oneRecord 1 rfl⟩

/-- C12 as stated fails: with sampling enabled and one record in memory,
`printdata(1)` reports `recordcount` (the line `1 records in memory`) and
`average` before the trigger is disarmed and before the wait on
`SAMPLE_DONE`. -/
theorem reads_before_freeze_refuted :
    (sampleprocess (main (fun _ => 0)) 1).1.sampleenable = true ∧
    readsBeforeFreeze (printdata (sampleprocess (main (fun _ => 0)) 1).1 1).2
      = [Event.recordsInMemory 1,
          Event.averageValue (sampleprocess (main (fun _ => 0)) 1).1.average] ∧
    readsBeforeFreeze (printdata (sampleprocess (main (fun _ => 0)) 1).1 1).2 ≠ [] := by
  have hrc : (sampleprocess (main (fun _ => 0)) 1).1.recordcount = 1 := by decide
  have h := printdata_trace (sampleprocess (main (fun _ => 0)) 1).1 1 rfl (by rw [hrc]; decide)
  have e : readsBeforeFreeze (printdata (sampleprocess (main (fun _ => 0)) 1).1 1).2
      = [Event.recordsInMemory 1,
          Event.averageValue (sampleprocess (main (fun _ => 0)) 1).1.average] := by
    rw [h, hrc]
    rfl
  refine ⟨rfl, e, ?_⟩
  rw [e]
  exact List.cons_ne_nil _ _

/-- C17 fails on the code.  From the reset state of the reader, the arguments
`off` and `120` (three characters, then Enter) are accepted without the
message `Argument max length exceeded`, and fill all `ARGBUF_SIZE` bytes of
`argumentbuf`: the buffer holds no terminator when `strcmp` and `stringtoint`
read it. -/
theorem argumentbuf_without_terminator (r : Reader) :
    ((argumentLoop (resetReader r) [111, 102, 102, 13]).1 = LoopExit.finished ∧
      ReaderEvent.argumentOverflow ∉ (argumentLoop (resetReader r) [111, 102, 102, 13]).2.2 ∧
      hasTerminator (argumentLoop (resetReader r) [111, 102, 102, 13]).2.1.argumentbuf
        ARGBUF_SIZE = false) ∧
    ((argumentLoop (resetReader r) [49, 50, 48, 13]).1 = LoopExit.finished ∧
      ReaderEvent.argumentOverflow ∉ (argumentLoop (resetReader r) [49, 50, 48, 13]).2.2 ∧
      hasTerminator (argumentLoop (resetReader r) [49, 50, 48, 13]).2.1.argumentbuf
        ARGBUF_SIZE = false) := by
  have e1 : (argumentLoop (resetReader r) [111, 102, 102, 13]).2.2
      = [ReaderEvent.storeArgument 0 111, ReaderEvent.storeArgument 1 102,
          ReaderEvent.storeArgument 2 102] := rfl
  have e2 : (argumentLoop (resetReader r) [49, 50, 48, 13]).2.2
      = [ReaderEvent.storeArgument 0 49, ReaderEvent.storeArgument 1 50,
          ReaderEvent.storeArgument 2 48] := rfl
  refine ⟨⟨rfl, ?_, rfl⟩, ⟨rfl, ?_, rfl⟩⟩
  · rw [e1]
    decide
  · rw [e2]
    decide

/-- C18 fails on the code.  From the reset state of the reader, the
twenty-first character of a command word is stored at index
`COMBUF_SIZE = 20`, one past the last slot of `commandbuf`: the overflow test
`combufpos > COMBUF_SIZE` only fires at the twenty-second character. -/
theorem commandbuf_store_out_of_bounds (r : Reader) :
    commandStores (commandLoop (resetReader r) (List.replicate 21 97)).2.2
      = [0, 1, 2, 3, 4, 5, 6, 7, 8, 9, 10, 11, 12, 13, 14, 15, 16, 17, 18, 19, 20] ∧
    COMBUF_SIZE ∈ commandStores (commandLoop (resetReader r) (List.replicate 21 97)).2.2 ∧
    ReaderEvent.commandOverflow ∉ (commandLoop (resetReader r) (List.replicate 21 97)).2.2 := by
  have e : (commandLoop (resetReader r) (List.replicate 21 97)).2.2
      = (List.range 21).map (fun i : Nat => ReaderEvent.storeCommand (i : Int) 97) := rfl
  rw [e]
  refine ⟨by decide, by decide, by decide⟩

/-- C19.  For every string of at most 9 characters, `stringtoint` returns
`-1` if and only if the string contains a character outside `0 .. 9`;
otherwise it returns the decimal value of the digit string, which is
non-negative (`0` for the empty string).  Hence the dispatcher only calls
`printdata` and `deletedata` with a non-negative amount. -/
theorem stringtoint_decimal (str : List Nat) (hlen : str.length ≤ 9) :
    (stringtoint str = -1 ↔ ∃ c ∈ str, c < 48 ∨ 57 < c) ∧
    ((∀ c ∈ str, 48 ≤ c ∧ c ≤ 57) →
      stringtoint str = (decimalValue str : Int) ∧ 0 ≤ stringtoint str) ∧
    stringtoint [] = 0 ∧
    (∀ (command : List Nat) (amt : Int),
      decode command str = Action.print amt ∨ decode command str = Action.delete amt →
      0 ≤ amt) := by
  have hdig : (∀ c ∈ str, 48 ≤ c ∧ c ≤ 57) →
      stringtoint str = (decimalValue str : Int) ∧ 0 ≤ stringtoint str := by
    intro hd
    have e := stringtoint_digits str hd hlen
    rw [e]
    exact ⟨rfl, Int.natCast_nonneg _⟩
  have hiff : stringtoint str = -1 ↔ ∃ c ∈ str, c < 48 ∨ 57 < c := by
    constructor
    · intro h
      by_contra hne
      have hd : ∀ c ∈ str, 48 ≤ c ∧ c ≤ 57 := by
        intro c hc
        by_contra hc2
        exact hne ⟨c, hc, by omega⟩
      have := (hdig hd).2
      omega
    · intro h
      exact stringtointLoop_nondigit str 0 h
  have hnn : stringtoint str ≠ -1 → 0 ≤ stringtoint str := by
    intro hne
    apply (hdig _).2
    intro c hc
    by_contra hc2
    exact hne (hiff.mpr ⟨c, hc, by omega⟩)
  refine ⟨hiff, hdig, rfl, ?_⟩
  intro command amt h
  unfold decode at h
  split_ifs at h
  all_goals
    rcases h with h | h <;>
      first
        | (cases h; done)
        | (cases h; exact hnn (by assumption))

theorem stringtoint_decimal_witness :
    ([49, 50, 48] : List Nat).length ≤ 9 ∧
    ((stringtoint [49, 50, 48] = -1 ↔ ∃ c ∈ ([49, 50, 48] : List Nat), c < 48 ∨ 57 < c) ∧
    ((∀ c ∈ ([49, 50, 48] : List Nat), 48 ≤ c ∧ c ≤ 57) →
      stringtoint [49, 50, 48] = (decimalValue [49, 50, 48] : Int) ∧
      0 ≤ stringtoint [49, 50, 48]) ∧
    stringtoint [] = 0 ∧
    (∀ (command : List Nat) (amt : Int),
      decode command [49, 50, 48] = Action.print amt ∨
        decode command [49, 50, 48] = Action.delete amt →
      0 ≤ amt)) :=
  ⟨by decide, stringtoint_decimal [49, 50, 48] (by decide)⟩


end STM32
